import Mathlib

/-!
# Verification of `hashing/src/indexed_merkle_proof.rs`

A shallow embedding of the indexed Merkle inclusion-proof module and proofs
of the specification's claims about it.  Machine integers (`u64`, `usize`)
are modelled as `Nat`, with an explicit `% 2 ^ 64` exactly where the source
performs a 64-bit left shift that could overflow.  The underlying Blake2b
digest is an opaque, collision-resistant primitive supplied by a collaborator
outside this module; it is modelled as a free algebra, so two digests are
equal exactly when they were built by the same sequence of combining steps.

Loops and non-structural recursions of the source are embedded with an
explicit fuel argument (always instantiated so that the fuel provably never
runs out) so that every definition reduces inside the kernel.
-/

/-- Free model of a Blake2b digest.  `raw` is an arbitrary externally
produced leaf digest, `leBytes n` the little-endian 8-byte encoding of a
`u64` count, `sentinel` the distinguished empty-sequence digest
`util::SENTINEL2`, and `pair a b` the digest of the concatenation `a ++ b`. -/
inductive Blake2bHash : Type
  | raw (tag : Nat)
  | leBytes (n : Nat)
  | sentinel
  | pair (a b : Blake2bHash)
deriving DecidableEq, Repr

/-- `util::hash_pair`: the order-sensitive, domain-separated combination of
two byte strings by hashing their concatenation. -/
def hash_pair (a b : Blake2bHash) : Blake2bHash := Blake2bHash.pair a b

/-- `util::SENTINEL2`: the fixed digest standing for the raw root of an
empty leaf sequence. -/
def SENTINEL2 : Blake2bHash := Blake2bHash.sentinel

/-- Fuelled floor base-2 logarithm; `log2F fuel n` is exact when `n < 2 ^ fuel`. -/
def log2F : Nat → Nat → Nat
  | 0, _ => 0
  | fuel+1, n => if 2 ≤ n then log2F fuel (n / 2) + 1 else 0

/-- Floor base-2 logarithm of `n` (fuel `n` always suffices). -/
def ulog2 (n : Nat) : Nat := log2F n n

/-- The pivot of a subtree of `n ≥ 2` leaves: the source expression
`1u64 << (63 - (n - 1).leading_zeros())`, i.e. the largest power of two
strictly below `n` — `2 ^ ⌊log₂ (n - 1)⌋`. -/
def pivot (n : Nat) : Nat := 2 ^ ulog2 (n - 1)

/-- The canonical descent of §4.2: the root-to-leaf direction bits of the
split rule (`false` = left, `true` = right), fuelled. -/
def descendF : Nat → Nat → Nat → List Bool
  | 0, _, _ => []
  | fuel+1, n, i =>
    if 1 < n then
      if i < pivot n then false :: descendF fuel (pivot n) i
      else true :: descendF fuel (n - pivot n) (i - pivot n)
    else []

/-- Root-to-leaf direction bits for a subtree of `n` leaves and target `i`. -/
def descend (n i : Nat) : List Bool := descendF n n i

/-- Value of a direction-bit sequence packed most-significant-first, as the
source's left-shift accumulation produces it. -/
def bitsToNat : List Bool → Nat
  | [] => 0
  | b :: bs => (if b then 1 else 0) * 2 ^ bs.length + bitsToNat bs

/-- The loop of `IndexedMerkleProof::compute_expected_proof_length`, fuelled:
state `(n, i, l)`, one increment of `l` per descent step. -/
def proofLenF : Nat → Nat → Nat → Nat → Nat
  | 0, _, _, l => l
  | fuel+1, n, i, l =>
    if 1 < n then
      if i < pivot n then proofLenF fuel (pivot n) i (l + 1)
      else proofLenF fuel (n - pivot n) (i - pivot n) (l + 1)
    else l

/-- `IndexedMerkleProof::compute_expected_proof_length`. -/
def compute_expected_proof_length (index count : Nat) : Nat :=
  if count = 0 then 0 else proofLenF count count index 1

/-- The direction-bit collection loop of `IndexedMerkleProof::root_hash`,
fuelled: `path` is the 64-bit accumulator, shifted left (mod `2 ^ 64`) each
step and or-ed with 1 on a right descent. -/
def pathLoopF : Nat → Nat → Nat → Nat → Nat
  | 0, _, _, path => path
  | fuel+1, n, i, path =>
    if 1 < n then
      if i < pivot n then pathLoopF fuel (pivot n) i (2 * path % 2 ^ 64)
      else pathLoopF fuel (n - pivot n) (i - pivot n) ((2 * path % 2 ^ 64) ||| 1)
    else path

/-- The packed path of `root_hash` for a given `count` and `index`. -/
def pathLoop (count index : Nat) : Nat := pathLoopF count count index 0

/-- The proof-consumption loop of `root_hash`: fold the remaining proof
elements into the accumulator, the lowest path bit deciding argument order
(`1` = sibling-then-accumulator), shifting the path right each step. -/
def foldProof : List Blake2bHash → Blake2bHash → Nat → Blake2bHash
  | [], acc, _ => acc
  | h :: rest, acc, path =>
    if path % 2 = 1 then foldProof rest (hash_pair h acc) (path / 2)
    else foldProof rest (hash_pair acc h) (path / 2)

/-- `MerkleVerificationError`. -/
inductive MerkleVerificationError : Type
  | IndexOutOfBounds (count index : Nat)
  | UnexpectedProofLength (count index expected_proof_length actual_proof_length : Nat)
deriving DecidableEq, Repr

/-- `MerkleConstructionError`. -/
inductive MerkleConstructionError : Type
  | EmptyProofMustHaveIndex (index : Nat)
  | IndexOutOfBounds (count index : Nat)
  | IncorrectChunkProof
  | IncorrectIndexedMerkleProof
deriving DecidableEq, Repr

/-- `IndexedMerkleProof`. -/
structure IndexedMerkleProof : Type where
  index : Nat
  count : Nat
  merkle_proof : List Blake2bHash
deriving DecidableEq, Repr

/-- `IndexedMerkleProof::root_hash`: fold the proof from the leaf hash up,
directed by the packed path, then bind the raw root to the little-endian
count; an empty proof yields the sentinel as raw root. -/
def root_hash (p : IndexedMerkleProof) : Blake2bHash :=
  match p.merkle_proof with
  | [] => hash_pair (Blake2bHash.leBytes p.count) SENTINEL2
  | leaf_hash :: rest =>
    hash_pair (Blake2bHash.leBytes p.count)
      (foldProof rest leaf_hash (pathLoop p.count p.index))

/-- `IndexedMerkleProof::verify`. -/
def verify (p : IndexedMerkleProof) : Except MerkleVerificationError Unit :=
  if ¬((p.count = 0 ∧ p.index = 0) ∨ p.index < p.count) then
    Except.error (MerkleVerificationError.IndexOutOfBounds p.count p.index)
  else if p.merkle_proof.length ≠ compute_expected_proof_length p.index p.count then
    Except.error (MerkleVerificationError.UnexpectedProofLength p.count p.index
      (compute_expected_proof_length p.index p.count) p.merkle_proof.length)
  else Except.ok ()

/-- `IndexedMerkleProofDeserializeValidator`: the raw decoded triple before
the `TryFrom` consistency check. -/
structure IndexedMerkleProofDeserializeValidator : Type where
  index : Nat
  count : Nat
  merkle_proof : List Blake2bHash
deriving DecidableEq, Repr

/-- `TryFrom<IndexedMerkleProofDeserializeValidator> for IndexedMerkleProof`:
reject when `index > count` or the proof length differs from the expected
proof length, otherwise materialize the candidate. -/
def tryFromValidator (v : IndexedMerkleProofDeserializeValidator) :
    Except MerkleConstructionError IndexedMerkleProof :=
  let candidate : IndexedMerkleProof :=
    { index := v.index, count := v.count, merkle_proof := v.merkle_proof }
  if candidate.count < candidate.index ∨
      candidate.merkle_proof.length ≠
        compute_expected_proof_length candidate.index candidate.count then
    Except.error MerkleConstructionError.IncorrectIndexedMerkleProof
  else Except.ok candidate

/-- The tagged fold node of `IndexedMerkleProof::new`: a plain subtree hash
or the in-progress proof containing the target leaf. -/
inductive HashOrProof : Type
  | Hash (h : Blake2bHash)
  | Proof (p : List Blake2bHash)
deriving DecidableEq, Repr

/-- The combining closure of the `tree_fold1` call in `new`; `none` models
the `unreachable!()` panic on the `(Proof, Proof)` arm. -/
def combineNodes : Nat × HashOrProof → Nat × HashOrProof → Option (Nat × HashOrProof)
  | (count_x, HashOrProof.Hash hash_x), (count_y, HashOrProof.Hash hash_y) =>
    some (count_x + count_y, HashOrProof.Hash (hash_pair hash_x hash_y))
  | (count_x, HashOrProof.Hash h), (count_y, HashOrProof.Proof pf) =>
    some (count_x + count_y, HashOrProof.Proof (pf ++ [h]))
  | (count_x, HashOrProof.Proof pf), (count_y, HashOrProof.Hash h) =>
    some (count_x + count_y, HashOrProof.Proof (pf ++ [h]))
  | (_, HashOrProof.Proof _), (_, HashOrProof.Proof _) => none

/-- `itertools::Itertools::tree_fold1`'s combining shape on a nonempty list:
a binary tree whose left subtree covers the largest power of two strictly
below the length (the maximal balanced cluster the pairwise-then-pairwise
fold closes first), fuelled; `none` models a panic inside the closure. -/
def treeFoldF (f : Nat × HashOrProof → Nat × HashOrProof → Option (Nat × HashOrProof)) :
    Nat → List (Nat × HashOrProof) → Option (Nat × HashOrProof)
  | _, [] => none
  | _, [x] => some x
  | 0, _ :: _ :: _ => none
  | fuel+1, x :: y :: rest =>
    let xs := x :: y :: rest
    match treeFoldF f fuel (xs.take (pivot xs.length)),
        treeFoldF f fuel (xs.drop (pivot xs.length)) with
    | some a, some b => f a b
    | _, _ => none

/-- `tree_fold1`: `some none` on the empty iterator (the fold's `None`),
`some (some r)` on a completed fold, `none` when the closure panicked. -/
def tree_fold1 (f : Nat × HashOrProof → Nat × HashOrProof → Option (Nat × HashOrProof))
    (xs : List (Nat × HashOrProof)) : Option (Option (Nat × HashOrProof)) :=
  match xs with
  | [] => some none
  | _ :: _ => (treeFoldF f xs.length xs).map some

/-- The enumerate-and-tag map of `new`: leaf `i` becomes a one-leaf `Proof`
node when `i` equals the target index, a plain `Hash` node otherwise. -/
def tagLeaf (index : Nat) (p : Nat × Blake2bHash) : Nat × HashOrProof :=
  if p.1 = index then (1, HashOrProof.Proof [p.2]) else (1, HashOrProof.Hash p.2)

/-- `IndexedMerkleProof::new`: enumerate and tag the leaves, tree-fold them,
and translate the outcome; the outer `none` models a panic. -/
def new (leaves : List Blake2bHash) (index : Nat) :
    Option (Except MerkleConstructionError IndexedMerkleProof) :=
  match tree_fold1 combineNodes ((List.enum leaves).map (tagLeaf index)) with
  | none => none
  | some none =>
    if index ≠ 0 then
      some (Except.error (MerkleConstructionError.EmptyProofMustHaveIndex index))
    else
      some (Except.ok { index := 0, count := 0, merkle_proof := [] })
  | some (some (count, HashOrProof.Hash _)) =>
    some (Except.error (MerkleConstructionError.IndexOutOfBounds count index))
  | some (some (count, HashOrProof.Proof merkle_proof)) =>
    some (Except.ok { index := index, count := count, merkle_proof := merkle_proof })

/-- Modelled from the spec: the raw root of §4.2/§4.1 computed directly over
a full leaf list (the repository's `util::hash_merkle_tree` is not among the
provided sources) — split a list of `n ≥ 2` leaves at the largest power of
two strictly below `n`, combine left-then-right; a single leaf is its own
raw root; the empty list's raw root is the sentinel.  Fuelled. -/
def direct_raw_rootF : Nat → List Blake2bHash → Blake2bHash
  | _, [] => SENTINEL2
  | _, [h] => h
  | 0, _ :: _ :: _ => SENTINEL2
  | fuel+1, x :: y :: rest =>
    let xs := x :: y :: rest
    hash_pair (direct_raw_rootF fuel (xs.take (pivot xs.length)))
      (direct_raw_rootF fuel (xs.drop (pivot xs.length)))

/-- Modelled from the spec: the raw split-and-combine root of a leaf list. -/
def direct_raw_root (xs : List Blake2bHash) : Blake2bHash := direct_raw_rootF xs.length xs

/-- Modelled from the spec: the directly computed root over the full leaf
list — the raw split-and-combine root bound to the little-endian count. -/
def directly_computed_root (leaves : List Blake2bHash) : Blake2bHash :=
  hash_pair (Blake2bHash.leBytes leaves.length) (direct_raw_root leaves)

/-- The sibling list the canonical descent predicts for target `i` in a leaf
list: the leaf itself first, then the sibling subtree roots bottom-up.
Fuelled. -/
def canonicalProofF : Nat → Nat → List Blake2bHash → List Blake2bHash
  | _, _, [] => []
  | _, _, [h] => [h]
  | 0, _, _ :: _ :: _ => []
  | fuel+1, i, x :: y :: rest =>
    let xs := x :: y :: rest
    let p := pivot xs.length
    if i < p then canonicalProofF fuel i (xs.take p) ++ [direct_raw_root (xs.drop p)]
    else canonicalProofF fuel (i - p) (xs.drop p) ++ [direct_raw_root (xs.take p)]

/-- The canonical sibling list for target `i` in a leaf list. -/
def canonicalProof (i : Nat) (xs : List Blake2bHash) : List Blake2bHash :=
  canonicalProofF xs.length i xs

/-- The recursive reference implementation `compute_raw_root_from_proof` of
the source's test module, fuelled; `none` models the panics of `proof[0]` /
`proof.len() - 1` on a too-short proof. -/
def rawRootRefF : Nat → Nat → Nat → List Blake2bHash → Option Blake2bHash
  | _, _, 0, _ => some SENTINEL2
  | _, _, 1, proof => proof.head?
  | 0, _, _+2, _ => none
  | fuel+1, index, n+2, proof =>
    let leaf_count := n + 2
    let half := pivot leaf_count
    match proof.getLast? with
    | none => none
    | some last =>
      if index < half then
        (rawRootRefF fuel index half proof.dropLast).map fun left => hash_pair left last
      else
        (rawRootRefF fuel (index - half) (leaf_count - half) proof.dropLast).map
          fun right => hash_pair last right

/-- The test module's `reference_root_from_proof`: the recursive raw root
bound to the little-endian count. -/
def reference_root_from_proof (index count : Nat) (proof : List Blake2bHash) :
    Option Blake2bHash :=
  (rawRootRefF count index count proof).map fun raw_root =>
    hash_pair (Blake2bHash.leBytes count) raw_root

/-- Bit length of a `u64` value: `0` for `0`, else `⌊log₂ x⌋ + 1`. -/
def bitLength (x : Nat) : Nat := if x = 0 then 0 else ulog2 x + 1

/-- `u64::leading_zeros`: `64` minus the bit length. -/
def leading_zeros64 (x : Nat) : Nat := 64 - bitLength x

instance (priority := low) exceptDecidableEq {ε α : Type} [DecidableEq ε] [DecidableEq α] :
    DecidableEq (Except ε α) := fun x y =>
  match x, y with
  | Except.error a, Except.error b =>
    if h : a = b then Decidable.isTrue (by rw [h]) else Decidable.isFalse (by simp [h])
  | Except.ok a, Except.ok b =>
    if h : a = b then Decidable.isTrue (by rw [h]) else Decidable.isFalse (by simp [h])
  | Except.error _, Except.ok _ => Decidable.isFalse (by simp)
  | Except.ok _, Except.error _ => Decidable.isFalse (by simp)

theorem log2F_eq : ∀ (f n : Nat), n < 2 ^ f → log2F f n = Nat.log 2 n := by
  intro f
  induction f with
  | zero =>
    intro n h
    have : n = 0 := by simpa using Nat.lt_one_iff.mp (by simpa using h)
    subst this
    simp [log2F]
  | succ f ih =>
    intro n h
    by_cases h2 : 2 ≤ n
    · have hdiv : n / 2 < 2 ^ f := by
        have : n < 2 ^ f * 2 := by
          have := h
          rw [pow_succ] at this
          omega
        exact Nat.div_lt_of_lt_mul (by omega)
      have hrec := ih (n / 2) hdiv
      have hlogpos : 0 < Nat.log 2 n := Nat.log_pos (by norm_num) h2
      have hdb : Nat.log 2 (n / 2) = Nat.log 2 n - 1 := Nat.log_div_base 2 n
      simp only [log2F, if_pos h2]
      omega
    · simp only [log2F, if_neg h2]
      have : Nat.log 2 n = 0 := Nat.log_eq_zero_iff.mpr (Or.inl (by omega))
      omega

theorem ulog2_eq (n : Nat) : ulog2 n = Nat.log 2 n := log2F_eq n n (Nat.lt_two_pow n)

theorem pivot_pos (n : Nat) : 0 < pivot n := Nat.pos_pow_of_pos _ (by norm_num)

theorem pivot_lt {n : Nat} (h : 2 ≤ n) : pivot n < n := by
  have h1 : 2 ^ Nat.log 2 (n - 1) ≤ n - 1 := Nat.pow_log_le_self 2 (by omega)
  unfold pivot
  rw [ulog2_eq]
  omega

theorem le_two_pivot {n : Nat} (h : 2 ≤ n) : n ≤ 2 * pivot n := by
  have h1 : n - 1 < 2 ^ (Nat.log 2 (n - 1)).succ := Nat.lt_pow_succ_log_self (by norm_num) (n - 1)
  unfold pivot
  rw [ulog2_eq]
  rw [pow_succ] at h1
  omega

theorem pivot_le_pow {n k : Nat} (h2 : 2 ≤ n) (h : n ≤ 2 ^ (k + 1)) : pivot n ≤ 2 ^ k := by
  have hlt : pivot n < 2 ^ (k + 1) := lt_of_lt_of_le (pivot_lt h2) h
  unfold pivot at *
  rw [ulog2_eq] at *
  have := (Nat.pow_lt_pow_iff_right (by norm_num : (1:Nat) < 2)).mp hlt
  exact Nat.pow_le_pow_right (by norm_num) (by omega)

theorem two_mul_lor_one (a : Nat) : 2 * a ||| 1 = 2 * a + 1 := by
  apply Nat.eq_of_testBit_eq
  intro i
  rw [Nat.testBit_lor]
  cases i with
  | zero =>
    rw [Nat.testBit_zero, Nat.testBit_zero, Nat.testBit_zero]
    simp
    omega
  | succ j =>
    rw [Nat.testBit_succ, Nat.testBit_succ, Nat.testBit_succ]
    have h1 : 2 * a / 2 = a := by omega
    have h2 : (2 * a + 1) / 2 = a := by omega
    have h3 : (1 : Nat) / 2 = 0 := by omega
    rw [h1, h2, h3]
    simp [Nat.zero_testBit]

theorem descendF_congr : ∀ (f₁ f₂ n i : Nat), n ≤ f₁ → n ≤ f₂ →
    descendF f₁ n i = descendF f₂ n i := by
  intro f₁
  induction f₁ with
  | zero =>
    intro f₂ n i h1 _
    have hn : n = 0 := by omega
    subst hn
    cases f₂ with
    | zero => rfl
    | succ g => simp [descendF]
  | succ f ih =>
    intro f₂ n i h1 h2
    cases f₂ with
    | zero =>
      have hn : n = 0 := by omega
      subst hn
      simp [descendF]
    | succ g =>
      simp only [descendF]
      by_cases hn : 1 < n
      · have hpl : pivot n < n := pivot_lt hn
        have hpp : 0 < pivot n := pivot_pos n
        rw [if_pos hn, if_pos hn]
        by_cases hi : i < pivot n
        · rw [if_pos hi, if_pos hi, ih g (pivot n) i (by omega) (by omega)]
        · rw [if_neg hi, if_neg hi, ih g (n - pivot n) (i - pivot n) (by omega) (by omega)]
      · rw [if_neg hn, if_neg hn]

theorem descend_nil {n : Nat} (i : Nat) (h : n ≤ 1) : descend n i = [] := by
  unfold descend
  interval_cases n
  · rfl
  · simp [descendF]

theorem descend_eq {n : Nat} (i : Nat) (h : 1 < n) :
    descend n i = if i < pivot n then false :: descend (pivot n) i
      else true :: descend (n - pivot n) (i - pivot n) := by
  obtain ⟨m, rfl⟩ : ∃ m, n = m + 1 := ⟨n - 1, by omega⟩
  have hpl : pivot (m + 1) < m + 1 := pivot_lt h
  have hpp : 0 < pivot (m + 1) := pivot_pos _
  show descendF (m + 1) (m + 1) i = _
  simp only [descendF, if_pos h]
  by_cases hi : i < pivot (m + 1)
  · rw [if_pos hi, if_pos hi,
      descendF_congr m (pivot (m + 1)) (pivot (m + 1)) i (by omega) le_rfl]
    rfl
  · rw [if_neg hi, if_neg hi,
      descendF_congr m (m + 1 - pivot (m + 1)) (m + 1 - pivot (m + 1)) (i - pivot (m + 1))
        (by omega) le_rfl]
    rfl

theorem descend_len_le : ∀ (k n i : Nat), n ≤ 2 ^ k → (descend n i).length ≤ k := by
  intro k
  induction k with
  | zero =>
    intro n i h
    have hn : n ≤ 1 := by simpa using h
    simp [descend_nil i hn]
  | succ k ih =>
    intro n i h
    by_cases hn : 1 < n
    · rw [descend_eq i hn]
      have hple : pivot n ≤ 2 ^ k := pivot_le_pow hn h
      have h2p : n ≤ 2 * pivot n := le_two_pivot hn
      by_cases hi : i < pivot n
      · simp only [if_pos hi, List.length_cons]
        have := ih (pivot n) i hple
        omega
      · simp only [if_neg hi, List.length_cons]
        have := ih (n - pivot n) (i - pivot n) (by omega)
        omega
    · simp [descend_nil i (by omega : n ≤ 1)]

theorem bitsToNat_cons_false (bs : List Bool) : bitsToNat (false :: bs) = bitsToNat bs := by
  simp [bitsToNat]

theorem bitsToNat_cons_true (bs : List Bool) :
    bitsToNat (true :: bs) = 2 ^ bs.length + bitsToNat bs := by
  simp [bitsToNat]

theorem bitsToNat_lt : ∀ bs : List Bool, bitsToNat bs < 2 ^ bs.length := by
  intro bs
  induction bs with
  | nil => simp [bitsToNat]
  | cons b bs ih =>
    cases b
    · rw [bitsToNat_cons_false, List.length_cons, pow_succ]
      omega
    · rw [bitsToNat_cons_true, List.length_cons, pow_succ]
      omega

theorem proofLenF_eq : ∀ (f n i l : Nat), n ≤ f →
    proofLenF f n i l = l + (descend n i).length := by
  intro f
  induction f with
  | zero =>
    intro n i l h
    have hn0 : n = 0 := by omega
    subst hn0
    have hd : descend 0 i = [] := descend_nil i (by omega)
    simp [proofLenF, hd]
  | succ f ih =>
    intro n i l h
    by_cases hn : 1 < n
    · have hpl : pivot n < n := pivot_lt hn
      have hpp : 0 < pivot n := pivot_pos n
      by_cases hi : i < pivot n
      · have hdes : descend n i = false :: descend (pivot n) i := by
          rw [descend_eq i hn, if_pos hi]
        rw [hdes, List.length_cons]
        show proofLenF (f + 1) n i l = _
        simp only [proofLenF, if_pos hn, if_pos hi]
        rw [ih (pivot n) i (l + 1) (by omega)]
        omega
      · have hdes : descend n i = true :: descend (n - pivot n) (i - pivot n) := by
          rw [descend_eq i hn, if_neg hi]
        rw [hdes, List.length_cons]
        show proofLenF (f + 1) n i l = _
        simp only [proofLenF, if_pos hn, if_neg hi]
        rw [ih (n - pivot n) (i - pivot n) (l + 1) (by omega)]
        omega
    · have hd : descend n i = [] := descend_nil i (by omega)
      show proofLenF (f + 1) n i l = _
      simp [proofLenF, if_neg hn, hd]

theorem expected_len_zero (index : Nat) : compute_expected_proof_length index 0 = 0 := rfl

theorem expected_len_eq {count : Nat} (index : Nat) (h : count ≠ 0) :
    compute_expected_proof_length index count = 1 + (descend count index).length := by
  unfold compute_expected_proof_length
  rw [if_neg h, proofLenF_eq count count index 1 le_rfl]

theorem pathLoopF_eq_bits : ∀ (f n i path : Nat), n ≤ f →
    path * 2 ^ (descend n i).length + bitsToNat (descend n i) < 2 ^ 64 →
    pathLoopF f n i path = path * 2 ^ (descend n i).length + bitsToNat (descend n i) := by
  intro f
  induction f with
  | zero =>
    intro n i path h _
    have hn0 : n = 0 := by omega
    subst hn0
    have hd : descend 0 i = [] := descend_nil i (by omega)
    simp [pathLoopF, hd, bitsToNat]
  | succ f ih =>
    intro n i path h hlt
    by_cases hn : 1 < n
    · have hpl : pivot n < n := pivot_lt hn
      have hpp : 0 < pivot n := pivot_pos n
      by_cases hi : i < pivot n
      · have hdes : descend n i = false :: descend (pivot n) i := by
          rw [descend_eq i hn, if_pos hi]
        rw [hdes, List.length_cons, bitsToNat_cons_false] at hlt ⊢
        set L := (descend (pivot n) i).length with hL
        set B := bitsToNat (descend (pivot n) i) with hB
        have hpow : (2 : Nat) ≤ 2 ^ (L + 1) := by
          calc (2 : Nat) = 2 ^ 1 := rfl
          _ ≤ 2 ^ (L + 1) := Nat.pow_le_pow_right (by norm_num) (by omega)
        have h2p : 2 * path ≤ path * 2 ^ (L + 1) := by
          calc 2 * path = path * 2 := by ring
          _ ≤ path * 2 ^ (L + 1) := Nat.mul_le_mul_left path hpow
        have hmod : 2 * path % 2 ^ 64 = 2 * path := Nat.mod_eq_of_lt (by omega)
        have hkey : 2 * path * 2 ^ L = path * 2 ^ (L + 1) := by ring
        have hbound : 2 * path * 2 ^ L + B < 2 ^ 64 := by omega
        have hih := ih (pivot n) i (2 * path) (by omega) (by rw [← hL, ← hB]; exact hbound)
        rw [← hL, ← hB] at hih
        show pathLoopF (f + 1) n i path = _
        simp only [pathLoopF, if_pos hn, if_pos hi, hmod, hih]
        omega
      · have hdes : descend n i = true :: descend (n - pivot n) (i - pivot n) := by
          rw [descend_eq i hn, if_neg hi]
        rw [hdes, List.length_cons, bitsToNat_cons_true] at hlt ⊢
        set L := (descend (n - pivot n) (i - pivot n)).length with hL
        set B := bitsToNat (descend (n - pivot n) (i - pivot n)) with hB
        have hpow : (2 : Nat) ≤ 2 ^ (L + 1) := by
          calc (2 : Nat) = 2 ^ 1 := rfl
          _ ≤ 2 ^ (L + 1) := Nat.pow_le_pow_right (by norm_num) (by omega)
        have h2p : 2 * path ≤ path * 2 ^ (L + 1) := by
          calc 2 * path = path * 2 := by ring
          _ ≤ path * 2 ^ (L + 1) := Nat.mul_le_mul_left path hpow
        have hmod : 2 * path % 2 ^ 64 = 2 * path := Nat.mod_eq_of_lt (by omega)
        have hkey : (2 * path + 1) * 2 ^ L = path * 2 ^ (L + 1) + 2 ^ L := by ring
        have hponn : (0:Nat) < 2 ^ L := Nat.pos_pow_of_pos _ (by norm_num)
        have hbound : (2 * path + 1) * 2 ^ L + B < 2 ^ 64 := by omega
        have hih := ih (n - pivot n) (i - pivot n) (2 * path + 1) (by omega)
          (by rw [← hL, ← hB]; exact hbound)
        rw [← hL, ← hB] at hih
        show pathLoopF (f + 1) n i path = _
        simp only [pathLoopF, if_pos hn, if_neg hi, hmod, two_mul_lor_one, hih]
        omega
    · have hd : descend n i = [] := descend_nil i (by omega)
      show pathLoopF (f + 1) n i path = _
      simp [pathLoopF, if_neg hn, hd, bitsToNat]

theorem pathLoop_eq_bits {count : Nat} (index : Nat) (h : count ≤ 2 ^ 64) :
    pathLoop count index = bitsToNat (descend count index) := by
  have hlen : (descend count index).length ≤ 64 := descend_len_le 64 count index h
  have hb : bitsToNat (descend count index) < 2 ^ (descend count index).length :=
    bitsToNat_lt _
  have hple : (2 : Nat) ^ (descend count index).length ≤ 2 ^ 64 :=
    Nat.pow_le_pow_right (by norm_num) hlen
  have hfit : 0 * 2 ^ (descend count index).length + bitsToNat (descend count index)
      < 2 ^ 64 := by omega
  have := pathLoopF_eq_bits count count index 0 le_rfl hfit
  simpa [pathLoop] using this
theorem foldProof_append : ∀ (xs ys : List Blake2bHash) (acc : Blake2bHash) (low hi : Nat),
    low < 2 ^ xs.length →
    foldProof (xs ++ ys) acc (low + hi * 2 ^ xs.length)
      = foldProof ys (foldProof xs acc low) hi := by
  intro xs
  induction xs with
  | nil =>
    intro ys acc low hi hlow
    have hl0 : low = 0 := by simpa using Nat.lt_one_iff.mp (by simpa using hlow)
    subst hl0
    simp [foldProof]
  | cons x xs ih =>
    intro ys acc low hi hlow
    rw [List.length_cons] at hlow
    have harr : hi * 2 ^ (xs.length + 1) = hi * 2 ^ xs.length * 2 := by
      rw [pow_succ]
      ring
    have hsplit : (low + hi * 2 ^ (xs.length + 1)) % 2 = low % 2 := by
      rw [harr]
      omega
    have hdiv : (low + hi * 2 ^ (xs.length + 1)) / 2 = low / 2 + hi * 2 ^ xs.length := by
      rw [harr]
      omega
    have hlow2 : low / 2 < 2 ^ xs.length := by
      rw [pow_succ] at hlow
      omega
    rw [List.cons_append, List.length_cons]
    by_cases hp : low % 2 = 1
    · simp only [foldProof, hsplit, hdiv, hp, if_pos]
      exact ih ys (hash_pair x acc) (low / 2) hi hlow2
    · simp only [foldProof, hsplit, hdiv, if_neg hp]
      exact ih ys (hash_pair acc x) (low / 2) hi hlow2

theorem direct_raw_rootF_congr : ∀ (f₁ f₂ : Nat) (xs : List Blake2bHash),
    xs.length ≤ f₁ → xs.length ≤ f₂ → direct_raw_rootF f₁ xs = direct_raw_rootF f₂ xs := by
  intro f₁
  induction f₁ with
  | zero =>
    intro f₂ xs h1 _
    cases xs with
    | nil => cases f₂ <;> rfl
    | cons a tl => simp at h1
  | succ f ih =>
    intro f₂ xs h1 h2
    cases xs with
    | nil => cases f₂ <;> rfl
    | cons x tl =>
      cases tl with
      | nil => cases f₂ <;> rfl
      | cons y rest =>
        have hlen : (x :: y :: rest).length = rest.length + 2 := by simp
        cases f₂ with
        | zero => omega
        | succ g =>
          have hp1 : 0 < pivot (x :: y :: rest).length := pivot_pos _
          have hp2 : pivot (x :: y :: rest).length < (x :: y :: rest).length :=
            pivot_lt (by omega)
          have htl : ((x :: y :: rest).take (pivot (x :: y :: rest).length)).length
              ≤ (x :: y :: rest).length - 1 := by
            rw [List.length_take]
            omega
          have hdl : ((x :: y :: rest).drop (pivot (x :: y :: rest).length)).length
              ≤ (x :: y :: rest).length - 1 := by
            rw [List.length_drop]
            omega
          simp only [direct_raw_rootF]
          rw [ih g _ (by omega) (by omega), ih g _ (by omega) (by omega)]

theorem direct_raw_root_two {xs : List Blake2bHash} (h : 2 ≤ xs.length) :
    direct_raw_root xs =
      hash_pair (direct_raw_root (xs.take (pivot xs.length)))
        (direct_raw_root (xs.drop (pivot xs.length))) := by
  cases xs with
  | nil => simp at h
  | cons x tl =>
    cases tl with
    | nil => simp at h
    | cons y rest =>
      have hlen : (x :: y :: rest).length = rest.length + 2 := by simp
      have hp1 : 0 < pivot (x :: y :: rest).length := pivot_pos _
      have hp2 : pivot (x :: y :: rest).length < (x :: y :: rest).length := pivot_lt (by omega)
      have htl : ((x :: y :: rest).take (pivot (x :: y :: rest).length)).length
          ≤ rest.length + 1 := by
        rw [List.length_take]
        omega
      have hdl : ((x :: y :: rest).drop (pivot (x :: y :: rest).length)).length
          ≤ rest.length + 1 := by
        rw [List.length_drop]
        omega
      show direct_raw_rootF (rest.length + 1 + 1) _ = _
      simp only [direct_raw_rootF]
      unfold direct_raw_root
      rw [direct_raw_rootF_congr (rest.length + 1) _ _ (by omega) le_rfl,
        direct_raw_rootF_congr (rest.length + 1) _ _ (by omega) le_rfl]

theorem canonicalProofF_congr : ∀ (f₁ f₂ i : Nat) (xs : List Blake2bHash),
    xs.length ≤ f₁ → xs.length ≤ f₂ → canonicalProofF f₁ i xs = canonicalProofF f₂ i xs := by
  intro f₁
  induction f₁ with
  | zero =>
    intro f₂ i xs h1 _
    cases xs with
    | nil => cases f₂ <;> rfl
    | cons a tl => simp at h1
  | succ f ih =>
    intro f₂ i xs h1 h2
    cases xs with
    | nil => cases f₂ <;> rfl
    | cons x tl =>
      cases tl with
      | nil => cases f₂ <;> rfl
      | cons y rest =>
        have hlen : (x :: y :: rest).length = rest.length + 2 := by simp
        cases f₂ with
        | zero => omega
        | succ g =>
          have hp1 : 0 < pivot (x :: y :: rest).length := pivot_pos _
          have hp2 : pivot (x :: y :: rest).length < (x :: y :: rest).length :=
            pivot_lt (by omega)
          have htl : ((x :: y :: rest).take (pivot (x :: y :: rest).length)).length
              ≤ (x :: y :: rest).length - 1 := by
            rw [List.length_take]
            omega
          have hdl : ((x :: y :: rest).drop (pivot (x :: y :: rest).length)).length
              ≤ (x :: y :: rest).length - 1 := by
            rw [List.length_drop]
            omega
          simp only [canonicalProofF]
          by_cases hi : i < pivot (x :: y :: rest).length
          · rw [if_pos hi, if_pos hi, ih g i _ (by omega) (by omega)]
          · rw [if_neg hi, if_neg hi, ih g (i - pivot (x :: y :: rest).length) _
              (by omega) (by omega)]

theorem canonicalProof_singleton (i : Nat) (h : Blake2bHash) :
    canonicalProof i [h] = [h] := rfl

theorem canonicalProof_two {xs : List Blake2bHash} (i : Nat) (h : 2 ≤ xs.length) :
    canonicalProof i xs =
      if i < pivot xs.length then
        canonicalProof i (xs.take (pivot xs.length))
          ++ [direct_raw_root (xs.drop (pivot xs.length))]
      else
        canonicalProof (i - pivot xs.length) (xs.drop (pivot xs.length))
          ++ [direct_raw_root (xs.take (pivot xs.length))] := by
  cases xs with
  | nil => simp at h
  | cons x tl =>
    cases tl with
    | nil => simp at h
    | cons y rest =>
      have hlen : (x :: y :: rest).length = rest.length + 2 := by simp
      have hp1 : 0 < pivot (x :: y :: rest).length := pivot_pos _
      have hp2 : pivot (x :: y :: rest).length < (x :: y :: rest).length := pivot_lt (by omega)
      have htl : ((x :: y :: rest).take (pivot (x :: y :: rest).length)).length
          ≤ rest.length + 1 := by
        rw [List.length_take]
        omega
      have hdl : ((x :: y :: rest).drop (pivot (x :: y :: rest).length)).length
          ≤ rest.length + 1 := by
        rw [List.length_drop]
        omega
      show canonicalProofF (rest.length + 1 + 1) _ _ = _
      simp only [canonicalProofF]
      by_cases hi : i < pivot (x :: y :: rest).length
      · rw [if_pos hi, if_pos hi]
        unfold canonicalProof
        rw [canonicalProofF_congr (rest.length + 1) _ _ _ (by omega) le_rfl]
      · rw [if_neg hi, if_neg hi]
        unfold canonicalProof
        rw [canonicalProofF_congr (rest.length + 1) _ _ _ (by omega) le_rfl]

theorem list_two_le_ne_nil {xs : List Blake2bHash} (h : xs ≠ []) (h2 : ¬ 2 ≤ xs.length) :
    ∃ a, xs = [a] := by
  cases xs with
  | nil => exact absurd rfl h
  | cons a tl =>
    cases tl with
    | nil => exact ⟨a, rfl⟩
    | cons b r => simp at h2

theorem canonicalProof_length : ∀ (bound : Nat) (xs : List Blake2bHash) (i : Nat),
    xs.length ≤ bound → xs ≠ [] →
    (canonicalProof i xs).length = 1 + (descend xs.length i).length := by
  intro bound
  induction bound with
  | zero =>
    intro xs i h hne
    cases xs with
    | nil => exact absurd rfl hne
    | cons a tl => simp at h
  | succ bound ih =>
    intro xs i h hne
    by_cases h2 : 2 ≤ xs.length
    · have hp1 : 0 < pivot xs.length := pivot_pos _
      have hp2 : pivot xs.length < xs.length := pivot_lt h2
      have htake_len : (xs.take (pivot xs.length)).length = pivot xs.length := by
        rw [List.length_take]
        omega
      have hdrop_len : (xs.drop (pivot xs.length)).length = xs.length - pivot xs.length := by
        rw [List.length_drop]
      have htake_ne : xs.take (pivot xs.length) ≠ [] := by
        intro hnil
        have hcl := congrArg List.length hnil
        rw [htake_len] at hcl
        simp at hcl
        omega
      have hdrop_ne : xs.drop (pivot xs.length) ≠ [] := by
        intro hnil
        have hcl := congrArg List.length hnil
        rw [hdrop_len] at hcl
        simp at hcl
        omega
      rw [canonicalProof_two i h2, descend_eq i (by omega)]
      by_cases hi : i < pivot xs.length
      · rw [if_pos hi, if_pos hi, List.length_append,
          ih _ i (by rw [htake_len]; omega) htake_ne, htake_len, List.length_cons]
        simp only [List.length_cons, List.length_nil]
        omega
      · rw [if_neg hi, if_neg hi, List.length_append,
          ih _ (i - pivot xs.length) (by rw [hdrop_len]; omega) hdrop_ne, hdrop_len,
          List.length_cons]
        simp only [List.length_cons, List.length_nil]
        omega
    · obtain ⟨a, rfl⟩ := list_two_le_ne_nil hne h2
      rw [canonicalProof_singleton, descend_nil i (by simp)]
      rfl
theorem foldProof_canonical : ∀ (bound : Nat) (ls : List Blake2bHash) (i : Nat)
    (rest : List Blake2bHash) (pa : Nat) (hd : Blake2bHash) (tl : List Blake2bHash),
    ls.length ≤ bound → ls ≠ [] → canonicalProof i ls = hd :: tl →
    foldProof (tl ++ rest) hd
      (bitsToNat (descend ls.length i) + pa * 2 ^ (descend ls.length i).length)
      = foldProof rest (direct_raw_root ls) pa := by
  intro bound
  induction bound with
  | zero =>
    intro ls i rest pa hd tl h hne _
    cases ls with
    | nil => exact absurd rfl hne
    | cons a tl2 => simp at h
  | succ bound ih =>
    intro ls i rest pa hd tl h hne hcp
    by_cases h2 : 2 ≤ ls.length
    · have hp1 : 0 < pivot ls.length := pivot_pos _
      have hp2 : pivot ls.length < ls.length := pivot_lt h2
      have htake_len : (ls.take (pivot ls.length)).length = pivot ls.length := by
        rw [List.length_take]
        omega
      have hdrop_len : (ls.drop (pivot ls.length)).length = ls.length - pivot ls.length := by
        rw [List.length_drop]
      have htake_ne : ls.take (pivot ls.length) ≠ [] := by
        intro hnil
        have hcl := congrArg List.length hnil
        rw [htake_len] at hcl
        simp at hcl
        omega
      have hdrop_ne : ls.drop (pivot ls.length) ≠ [] := by
        intro hnil
        have hcl := congrArg List.length hnil
        rw [hdrop_len] at hcl
        simp at hcl
        omega
      by_cases hi : i < pivot ls.length
      · have hdes : descend ls.length i = false :: descend (pivot ls.length) i := by
          rw [descend_eq i (by omega), if_pos hi]
        have hcp2 : canonicalProof i ls
            = canonicalProof i (ls.take (pivot ls.length))
              ++ [direct_raw_root (ls.drop (pivot ls.length))] := by
          rw [canonicalProof_two i h2, if_pos hi]
        have hlin := canonicalProof_length bound (ls.take (pivot ls.length)) i
          (by rw [htake_len]; omega) htake_ne
        obtain ⟨hd', tl', hcpt⟩ : ∃ hd' tl',
            canonicalProof i (ls.take (pivot ls.length)) = hd' :: tl' := by
          cases hcc : canonicalProof i (ls.take (pivot ls.length)) with
          | nil =>
            rw [hcc] at hlin
            simp only [List.length_nil] at hlin
            exact absurd hlin (by omega)
          | cons a b => exact ⟨a, b, rfl⟩
        rw [hcp2, hcpt, List.cons_append] at hcp
        injection hcp with hhd htl
        subst hhd
        subst htl
        rw [hdes, bitsToNat_cons_false, List.length_cons, List.append_assoc]
        have harr : bitsToNat (descend (pivot ls.length) i)
            + pa * 2 ^ ((descend (pivot ls.length) i).length + 1)
            = bitsToNat (descend (pivot ls.length) i)
              + 2 * pa * 2 ^ (descend (pivot ls.length) i).length := by
          ring
        rw [harr]
        have hih := ih (ls.take (pivot ls.length)) i
          ([direct_raw_root (ls.drop (pivot ls.length))] ++ rest) (2 * pa) hd' tl'
          (by rw [htake_len]; omega) htake_ne hcpt
        rw [htake_len] at hih
        rw [hih]
        have hmod2 : ¬((2 * pa) % 2 = 1) := by omega
        have hdiv2 : 2 * pa / 2 = pa := by omega
        simp only [List.singleton_append, foldProof, if_neg hmod2, hdiv2]
        rw [← direct_raw_root_two h2]
        rfl
      · have hdes : descend ls.length i
            = true :: descend (ls.length - pivot ls.length) (i - pivot ls.length) := by
          rw [descend_eq i (by omega), if_neg hi]
        have hcp2 : canonicalProof i ls
            = canonicalProof (i - pivot ls.length) (ls.drop (pivot ls.length))
              ++ [direct_raw_root (ls.take (pivot ls.length))] := by
          rw [canonicalProof_two i h2, if_neg hi]
        have hlin := canonicalProof_length bound (ls.drop (pivot ls.length))
          (i - pivot ls.length) (by rw [hdrop_len]; omega) hdrop_ne
        obtain ⟨hd', tl', hcpt⟩ : ∃ hd' tl',
            canonicalProof (i - pivot ls.length) (ls.drop (pivot ls.length)) = hd' :: tl' := by
          cases hcc : canonicalProof (i - pivot ls.length) (ls.drop (pivot ls.length)) with
          | nil =>
            rw [hcc] at hlin
            simp only [List.length_nil] at hlin
            exact absurd hlin (by omega)
          | cons a b => exact ⟨a, b, rfl⟩
        rw [hcp2, hcpt, List.cons_append] at hcp
        injection hcp with hhd htl
        subst hhd
        subst htl
        rw [hdes, bitsToNat_cons_true, List.length_cons, List.append_assoc]
        have harr : 2 ^ (descend (ls.length - pivot ls.length) (i - pivot ls.length)).length
            + bitsToNat (descend (ls.length - pivot ls.length) (i - pivot ls.length))
            + pa * 2 ^ ((descend (ls.length - pivot ls.length) (i - pivot ls.length)).length + 1)
            = bitsToNat (descend (ls.length - pivot ls.length) (i - pivot ls.length))
              + (2 * pa + 1)
                * 2 ^ (descend (ls.length - pivot ls.length) (i - pivot ls.length)).length := by
          ring
        rw [harr]
        have hih := ih (ls.drop (pivot ls.length)) (i - pivot ls.length)
          ([direct_raw_root (ls.take (pivot ls.length))] ++ rest) (2 * pa + 1) hd' tl'
          (by rw [hdrop_len]; omega) hdrop_ne hcpt
        rw [hdrop_len] at hih
        rw [hih]
        have hmod2 : (2 * pa + 1) % 2 = 1 := by omega
        have hdiv2 : (2 * pa + 1) / 2 = pa := by omega
        simp only [List.singleton_append, foldProof, if_pos hmod2, hdiv2]
        rw [← direct_raw_root_two h2]
        rfl
    · obtain ⟨a, rfl⟩ := list_two_le_ne_nil hne h2
      rw [canonicalProof_singleton] at hcp
      injection hcp with hhd htl
      subst hhd
      subst htl
      have hd1 : descend ([a] : List Blake2bHash).length i = [] := descend_nil i (by simp)
      rw [hd1]
      simp [bitsToNat, foldProof, direct_raw_root, direct_raw_rootF]
theorem enumFrom_take : ∀ (l : List Blake2bHash) (n p : Nat),
    (List.enumFrom n l).take p = List.enumFrom n (l.take p) := by
  intro l
  induction l with
  | nil => intro n p; simp
  | cons x xs ih =>
    intro n p
    cases p with
    | zero => rfl
    | succ q => simp [List.enumFrom, List.take_succ_cons, ih]

theorem enumFrom_drop : ∀ (l : List Blake2bHash) (n p : Nat),
    (List.enumFrom n l).drop p = List.enumFrom (n + p) (l.drop p) := by
  intro l
  induction l with
  | nil => intro n p; simp
  | cons x xs ih =>
    intro n p
    cases p with
    | zero => rfl
    | succ q =>
      simp only [List.enumFrom, List.drop_succ_cons]
      rw [ih (n + 1) q]
      congr 1
      omega

theorem treeFoldF_two (f : Nat) (xs : List (Nat × HashOrProof)) (h2 : 2 ≤ xs.length)
    (a b : Nat × HashOrProof)
    (ha : treeFoldF combineNodes f (xs.take (pivot xs.length)) = some a)
    (hb : treeFoldF combineNodes f (xs.drop (pivot xs.length)) = some b) :
    treeFoldF combineNodes (f + 1) xs = combineNodes a b := by
  cases xs with
  | nil => simp at h2
  | cons x tl =>
    cases tl with
    | nil => simp at h2
    | cons y rest =>
      simp only [treeFoldF]
      rw [ha, hb]

theorem treeFoldF_tagged : ∀ (fuel index off : Nat) (ls : List Blake2bHash),
    ls ≠ [] → ls.length ≤ fuel →
    treeFoldF combineNodes fuel ((List.enumFrom off ls).map (tagLeaf index)) =
      some (ls.length,
        if off ≤ index ∧ index < off + ls.length
        then HashOrProof.Proof (canonicalProof (index - off) ls)
        else HashOrProof.Hash (direct_raw_root ls)) := by
  intro fuel
  induction fuel with
  | zero =>
    intro index off ls hne h
    cases ls with
    | nil => exact absurd rfl hne
    | cons a tl => simp at h
  | succ fuel ih =>
    intro index off ls hne h
    by_cases h2 : 2 ≤ ls.length
    · have hp1 : 0 < pivot ls.length := pivot_pos _
      have hp2 : pivot ls.length < ls.length := pivot_lt h2
      have htake_len : (ls.take (pivot ls.length)).length = pivot ls.length := by
        rw [List.length_take]
        omega
      have hdrop_len : (ls.drop (pivot ls.length)).length = ls.length - pivot ls.length := by
        rw [List.length_drop]
      have htake_ne : ls.take (pivot ls.length) ≠ [] := by
        intro hnil
        have hcl := congrArg List.length hnil
        rw [htake_len] at hcl
        simp at hcl
        omega
      have hdrop_ne : ls.drop (pivot ls.length) ≠ [] := by
        intro hnil
        have hcl := congrArg List.length hnil
        rw [hdrop_len] at hcl
        simp at hcl
        omega
      set M := (List.enumFrom off ls).map (tagLeaf index) with hM
      have hMlen : M.length = ls.length := by
        rw [hM, List.length_map, List.enumFrom_length]
      have hpM : pivot M.length = pivot ls.length := by rw [hMlen]
      have hMtake : M.take (pivot M.length)
          = (List.enumFrom off (ls.take (pivot ls.length))).map (tagLeaf index) := by
        rw [hpM, hM, ← List.map_take, enumFrom_take]
      have hMdrop : M.drop (pivot M.length)
          = (List.enumFrom (off + pivot ls.length) (ls.drop (pivot ls.length))).map
            (tagLeaf index) := by
        rw [hpM, hM, ← List.map_drop, enumFrom_drop]
      have haL : treeFoldF combineNodes fuel (M.take (pivot M.length))
          = some ((ls.take (pivot ls.length)).length,
              if off ≤ index ∧ index < off + (ls.take (pivot ls.length)).length
              then HashOrProof.Proof (canonicalProof (index - off) (ls.take (pivot ls.length)))
              else HashOrProof.Hash (direct_raw_root (ls.take (pivot ls.length)))) := by
        rw [hMtake]
        exact ih index off (ls.take (pivot ls.length)) htake_ne (by rw [htake_len]; omega)
      have haR : treeFoldF combineNodes fuel (M.drop (pivot M.length))
          = some ((ls.drop (pivot ls.length)).length,
              if off + pivot ls.length ≤ index
                  ∧ index < off + pivot ls.length + (ls.drop (pivot ls.length)).length
              then HashOrProof.Proof
                (canonicalProof (index - (off + pivot ls.length)) (ls.drop (pivot ls.length)))
              else HashOrProof.Hash (direct_raw_root (ls.drop (pivot ls.length)))) := by
        rw [hMdrop]
        exact ih index (off + pivot ls.length) (ls.drop (pivot ls.length)) hdrop_ne
          (by rw [hdrop_len]; omega)
      rw [treeFoldF_two fuel M (by omega) _ _ haL haR, htake_len, hdrop_len]
      by_cases hin : off ≤ index ∧ index < off + ls.length
      · by_cases hi : index < off + pivot ls.length
        · have hc1 : off ≤ index ∧ index < off + pivot ls.length := by omega
          have hc2 : ¬(off + pivot ls.length ≤ index
              ∧ index < off + pivot ls.length + (ls.length - pivot ls.length)) := by omega
          rw [if_pos hc1, if_neg hc2, if_pos hin]
          simp only [combineNodes]
          have hcount : pivot ls.length + (ls.length - pivot ls.length) = ls.length := by omega
          rw [hcount, canonicalProof_two (index - off) h2, if_pos (by omega)]
        · have hc1 : ¬(off ≤ index ∧ index < off + pivot ls.length) := by omega
          have hc2 : off + pivot ls.length ≤ index
              ∧ index < off + pivot ls.length + (ls.length - pivot ls.length) := by omega
          rw [if_neg hc1, if_pos hc2, if_pos hin]
          simp only [combineNodes]
          have hcount : pivot ls.length + (ls.length - pivot ls.length) = ls.length := by omega
          rw [hcount, canonicalProof_two (index - off) h2, if_neg (by omega)]
          have hsub : index - off - pivot ls.length = index - (off + pivot ls.length) := by
            omega
          rw [hsub]
      · have hc1 : ¬(off ≤ index ∧ index < off + pivot ls.length) := by omega
        have hc2 : ¬(off + pivot ls.length ≤ index
            ∧ index < off + pivot ls.length + (ls.length - pivot ls.length)) := by omega
        rw [if_neg hc1, if_neg hc2, if_neg hin]
        simp only [combineNodes]
        have hcount : pivot ls.length + (ls.length - pivot ls.length) = ls.length := by omega
        rw [hcount, ← direct_raw_root_two h2]
    · obtain ⟨a, rfl⟩ := list_two_le_ne_nil hne h2
      have hmap : (List.enumFrom off [a]).map (tagLeaf index) = [tagLeaf index (off, a)] := by
        simp [List.enumFrom]
      rw [hmap]
      show some (tagLeaf index (off, a)) = _
      unfold tagLeaf
      by_cases hoi : off = index
      · rw [if_pos hoi, if_pos (by simp; omega)]
        have hsub : index - off = 0 := by omega
        simp [hsub, canonicalProof_singleton]
      · rw [if_neg hoi, if_neg (by simp; omega)]
        rfl

theorem new_spec (leaves : List Blake2bHash) (index : Nat) :
    new leaves index =
      if leaves = [] then
        (if index ≠ 0 then
          some (Except.error (MerkleConstructionError.EmptyProofMustHaveIndex index))
        else some (Except.ok ⟨0, 0, []⟩))
      else if index < leaves.length then
        some (Except.ok ⟨index, leaves.length, canonicalProof index leaves⟩)
      else some (Except.error (MerkleConstructionError.IndexOutOfBounds leaves.length index)) := by
  by_cases hnil : leaves = []
  · subst hnil
    rw [if_pos rfl]
    rfl
  · have hlenpos : 0 < leaves.length := List.length_pos.mpr hnil
    have henum : List.enum leaves = List.enumFrom 0 leaves := rfl
    set M := (List.enum leaves).map (tagLeaf index) with hM
    have hMlen : M.length = leaves.length := by
      rw [hM, List.length_map, henum, List.enumFrom_length]
    have htf := treeFoldF_tagged leaves.length index 0 leaves hnil le_rfl
    rw [← henum, ← hM] at htf
    obtain ⟨m, ms, hMcons⟩ : ∃ m ms, M = m :: ms := by
      cases hMc : M with
      | nil => rw [hMc] at hMlen; simp at hMlen; omega
      | cons m ms => exact ⟨m, ms, rfl⟩
    have hval : tree_fold1 combineNodes M = (treeFoldF combineNodes M.length M).map some := by
      rw [hMcons]
      rfl
    rw [hMlen, htf] at hval
    simp only [Nat.zero_add, Nat.sub_zero, Nat.zero_le, true_and] at hval
    by_cases hidx : index < leaves.length
    · rw [if_pos hidx] at hval
      show ((match tree_fold1 combineNodes M with
        | none => none
        | some none =>
          if index ≠ 0 then
            some (Except.error (MerkleConstructionError.EmptyProofMustHaveIndex index))
          else
            some (Except.ok ⟨0, 0, []⟩)
        | some (some (count, HashOrProof.Hash _)) =>
          some (Except.error (MerkleConstructionError.IndexOutOfBounds count index))
        | some (some (count, HashOrProof.Proof merkle_proof)) =>
          some (Except.ok ⟨index, count, merkle_proof⟩))
        : Option (Except MerkleConstructionError IndexedMerkleProof))
        = _
      rw [hval, if_neg hnil, if_pos hidx]
      rfl
    · rw [if_neg hidx] at hval
      show ((match tree_fold1 combineNodes M with
        | none => none
        | some none =>
          if index ≠ 0 then
            some (Except.error (MerkleConstructionError.EmptyProofMustHaveIndex index))
          else
            some (Except.ok ⟨0, 0, []⟩)
        | some (some (count, HashOrProof.Hash _)) =>
          some (Except.error (MerkleConstructionError.IndexOutOfBounds count index))
        | some (some (count, HashOrProof.Proof merkle_proof)) =>
          some (Except.ok ⟨index, count, merkle_proof⟩))
        : Option (Except MerkleConstructionError IndexedMerkleProof))
        = _
      rw [hval, if_neg hnil, if_neg hidx]
      rfl
theorem rawRootRefF_two (f i n : Nat) (proof : List Blake2bHash) (h2 : 2 ≤ n)
    (last : Blake2bHash) (hgl : proof.getLast? = some last) :
    rawRootRefF (f + 1) i n proof =
      if i < pivot n then
        (rawRootRefF f i (pivot n) proof.dropLast).map fun left => hash_pair left last
      else
        (rawRootRefF f (i - pivot n) (n - pivot n) proof.dropLast).map
          fun right => hash_pair last right := by
  obtain ⟨m, rfl⟩ : ∃ m, n = m + 2 := ⟨n - 2, by omega⟩
  simp only [rawRootRefF]
  rw [hgl]

theorem rawRootRefF_eq : ∀ (fuel n i : Nat) (hd : Blake2bHash) (tl : List Blake2bHash),
    n ≤ fuel → n ≠ 0 → (hd :: tl).length = 1 + (descend n i).length →
    rawRootRefF fuel i n (hd :: tl) = some (foldProof tl hd (bitsToNat (descend n i))) := by
  intro fuel
  induction fuel with
  | zero =>
    intro n i hd tl h hn0 _
    omega
  | succ fuel ih =>
    intro n i hd tl h hn0 hlen
    by_cases h2 : 2 ≤ n
    · have hp1 : 0 < pivot n := pivot_pos _
      have hp2 : pivot n < n := pivot_lt h2
      obtain ⟨init, last, rfl⟩ : ∃ init last, tl = init ++ [last] := by
        cases hco : tl.eq_nil_or_concat with
        | inl hn =>
          subst hn
          rw [List.length_cons, List.length_nil] at hlen
          by_cases hi : i < pivot n
          · have hdes : descend n i = false :: descend (pivot n) i := by
              rw [descend_eq i (by omega), if_pos hi]
            rw [hdes, List.length_cons] at hlen
            omega
          · have hdes : descend n i
                = true :: descend (n - pivot n) (i - pivot n) := by
              rw [descend_eq i (by omega), if_neg hi]
            rw [hdes, List.length_cons] at hlen
            omega
        | inr hex =>
          obtain ⟨init, last, hc⟩ := hex
          exact ⟨init, last, by rw [hc, List.concat_eq_append]⟩
      have hcc : hd :: (init ++ [last]) = (hd :: init) ++ [last] := by
        rw [List.cons_append]
      have hgl : (hd :: (init ++ [last])).getLast? = some last := by
        rw [hcc, List.getLast?_concat]
      have hdl : (hd :: (init ++ [last])).dropLast = hd :: init := by
        rw [hcc, List.dropLast_concat]
      rw [rawRootRefF_two fuel i n _ h2 last hgl, hdl]
      by_cases hi : i < pivot n
      · have hdes : descend n i = false :: descend (pivot n) i := by
          rw [descend_eq i (by omega), if_pos hi]
        have hinitlen : init.length = (descend (pivot n) i).length := by
          rw [hdes, List.length_cons] at hlen
          simp only [List.length_cons, List.length_append, List.length_nil] at hlen
          omega
        have hih := ih (pivot n) i hd init (by omega) (by omega) (by
          rw [List.length_cons, hinitlen]
          omega)
        rw [if_pos hi, hih, hdes, bitsToNat_cons_false]
        have hblt : bitsToNat (descend (pivot n) i) < 2 ^ init.length := by
          rw [hinitlen]
          exact bitsToNat_lt _
        have happ := foldProof_append init [last] hd (bitsToNat (descend (pivot n) i)) 0 hblt
        rw [Nat.zero_mul, Nat.add_zero] at happ
        rw [happ]
        simp only [Option.map_some', foldProof]
        rfl
      · have hdes : descend n i = true :: descend (n - pivot n) (i - pivot n) := by
          rw [descend_eq i (by omega), if_neg hi]
        have hinitlen : init.length = (descend (n - pivot n) (i - pivot n)).length := by
          rw [hdes, List.length_cons] at hlen
          simp only [List.length_cons, List.length_append, List.length_nil] at hlen
          omega
        have hih := ih (n - pivot n) (i - pivot n) hd init (by omega) (by omega) (by
          rw [List.length_cons, hinitlen]
          omega)
        rw [if_neg hi, hih, hdes, bitsToNat_cons_true]
        have hblt : bitsToNat (descend (n - pivot n) (i - pivot n)) < 2 ^ init.length := by
          rw [hinitlen]
          exact bitsToNat_lt _
        have happ := foldProof_append init [last] hd
          (bitsToNat (descend (n - pivot n) (i - pivot n))) 1 hblt
        rw [Nat.one_mul] at happ
        rw [hinitlen] at happ
        rw [Nat.add_comm (bitsToNat (descend (n - pivot n) (i - pivot n)))
          (2 ^ (descend (n - pivot n) (i - pivot n)).length)] at happ
        rw [happ]
        simp only [Option.map_some', foldProof]
        rfl
    · have hn1 : n = 1 := by omega
      subst hn1
      have hd1 : descend 1 i = [] := descend_nil i (by omega)
      rw [hd1] at hlen
      simp only [List.length_cons, List.length_nil] at hlen
      have htl : tl = [] := by
        cases tl with
        | nil => rfl
        | cons a b => simp at hlen
      subst htl
      rw [hd1]
      rfl
theorem verify_eq (index count : Nat) (mp : List Blake2bHash) :
    verify ⟨index, count, mp⟩ =
      if ¬((count = 0 ∧ index = 0) ∨ index < count) then
        Except.error (MerkleVerificationError.IndexOutOfBounds count index)
      else if mp.length ≠ compute_expected_proof_length index count then
        Except.error (MerkleVerificationError.UnexpectedProofLength count index
          (compute_expected_proof_length index count) mp.length)
      else Except.ok () := rfl

theorem verify_ok_iff (index count : Nat) (mp : List Blake2bHash) :
    verify ⟨index, count, mp⟩ = Except.ok () ↔
      (((count = 0 ∧ index = 0) ∨ index < count)
        ∧ mp.length = compute_expected_proof_length index count) := by
  rw [verify_eq]
  by_cases h1 : (count = 0 ∧ index = 0) ∨ index < count
  · rw [if_neg (not_not_intro h1)]
    by_cases h2 : mp.length = compute_expected_proof_length index count
    · rw [if_neg (not_not_intro h2)]
      simp [h1, h2]
    · rw [if_pos h2]
      simp [h1, h2]
  · rw [if_pos h1]
    simp [h1]

theorem tryFromValidator_eq (v : IndexedMerkleProofDeserializeValidator) :
    tryFromValidator v =
      if v.count < v.index
          ∨ v.merkle_proof.length ≠ compute_expected_proof_length v.index v.count then
        Except.error MerkleConstructionError.IncorrectIndexedMerkleProof
      else Except.ok ⟨v.index, v.count, v.merkle_proof⟩ := rfl

theorem reference_eq_root (index count : Nat) (proof : List Blake2bHash)
    (hcnt : count ≤ 2 ^ 64)
    (hlen : proof.length = compute_expected_proof_length index count) :
    reference_root_from_proof index count proof
      = some (root_hash ⟨index, count, proof⟩) := by
  by_cases hc0 : count = 0
  · subst hc0
    rw [expected_len_zero] at hlen
    have hnil : proof = [] := List.eq_nil_of_length_eq_zero hlen
    subst hnil
    rfl
  · rw [expected_len_eq index hc0] at hlen
    obtain ⟨hd, tl, rfl⟩ : ∃ hd tl, proof = hd :: tl := by
      cases proof with
      | nil => simp only [List.length_nil] at hlen; exact absurd hlen (by omega)
      | cons a b => exact ⟨a, b, rfl⟩
    unfold reference_root_from_proof
    rw [rawRootRefF_eq count count index hd tl le_rfl hc0 hlen]
    have hrh : root_hash ⟨index, count, hd :: tl⟩
        = hash_pair (Blake2bHash.leBytes count)
            (foldProof tl hd (pathLoop count index)) := rfl
    rw [hrh, pathLoop_eq_bits index hcnt]
    rfl
/-- Claim C1: for every finite leaf sequence (of `u64`-representable length)
and every valid index into it, the proof built by `IndexedMerkleProof::new`
has a `root_hash` equal to the root computed directly over the full leaf
list by the recursive split-and-combine rule of §4.2/§4.1. -/
theorem C1_round_trip (leaves : List Blake2bHash) (index : Nat)
    (hlen : leaves.length < 2 ^ 64) (hidx : index < leaves.length) :
    ∃ p, new leaves index = some (Except.ok p)
      ∧ root_hash p = directly_computed_root leaves := by
  have hne : leaves ≠ [] := by
    intro h
    subst h
    simp at hidx
  refine ⟨⟨index, leaves.length, canonicalProof index leaves⟩, ?_, ?_⟩
  · rw [new_spec, if_neg hne, if_pos hidx]
  · have hlin := canonicalProof_length leaves.length leaves index le_rfl hne
    obtain ⟨hd, tl, hcp⟩ : ∃ hd tl, canonicalProof index leaves = hd :: tl := by
      cases hcc : canonicalProof index leaves with
      | nil =>
        rw [hcc] at hlin
        simp only [List.length_nil] at hlin
        exact absurd hlin (by omega)
      | cons a b => exact ⟨a, b, rfl⟩
    have hpv : (⟨index, leaves.length, canonicalProof index leaves⟩ : IndexedMerkleProof)
        = ⟨index, leaves.length, hd :: tl⟩ := by rw [hcp]
    rw [hpv]
    have hrh : root_hash ⟨index, leaves.length, hd :: tl⟩
        = hash_pair (Blake2bHash.leBytes leaves.length)
            (foldProof tl hd (pathLoop leaves.length index)) := rfl
    rw [hrh, pathLoop_eq_bits index (by omega)]
    have hfc := foldProof_canonical leaves.length leaves index [] 0 hd tl le_rfl hne hcp
    rw [List.append_nil, Nat.zero_mul, Nat.add_zero] at hfc
    rw [hfc]
    rfl

/-- Witness for C1 at a concrete three-leaf sequence and index 1. -/
theorem C1_round_trip_witness :
    ∃ p, new [Blake2bHash.raw 0, Blake2bHash.raw 1, Blake2bHash.raw 2] 1
        = some (Except.ok p)
      ∧ root_hash p
        = directly_computed_root [Blake2bHash.raw 0, Blake2bHash.raw 1, Blake2bHash.raw 2] :=
  C1_round_trip [Blake2bHash.raw 0, Blake2bHash.raw 1, Blake2bHash.raw 2] 1
    (by norm_num) (by norm_num)

/-- Claim C2, counterexample: the candidate `(index 1, count 1, one hash)`
has the expected proof length and `index = count`, so the `TryFrom` decoder
accepts it, yet §4.4's `verify` rejects it with `IndexOutOfBounds` — the
decoder does not refuse exactly the candidates failing `verify`. -/
theorem C2_gate_counterexample :
    tryFromValidator ⟨1, 1, [Blake2bHash.raw 0]⟩
        = Except.ok ⟨1, 1, [Blake2bHash.raw 0]⟩
      ∧ verify ⟨1, 1, [Blake2bHash.raw 0]⟩
        = Except.error (MerkleVerificationError.IndexOutOfBounds 1 1) :=
  ⟨rfl, rfl⟩

/-- Claim C2 (amended): the `TryFrom` decoder accepts exactly the candidates
with `index ≤ count` and proof length equal to the expected proof length;
every candidate that `verify` accepts is accepted, and every candidate the
decoder rejects fails `verify`, but the decoder is strictly laxer than
`verify`: it also accepts `index = count > 0` candidates of the expected
proof length, which `verify` rejects. -/
theorem C2_gate_amended (v : IndexedMerkleProofDeserializeValidator) :
    ((∃ p, tryFromValidator v = Except.ok p)
      ↔ v.index ≤ v.count
        ∧ v.merkle_proof.length = compute_expected_proof_length v.index v.count)
    ∧ (verify ⟨v.index, v.count, v.merkle_proof⟩ = Except.ok ()
        → tryFromValidator v = Except.ok ⟨v.index, v.count, v.merkle_proof⟩)
    ∧ (tryFromValidator v = Except.error MerkleConstructionError.IncorrectIndexedMerkleProof
        → verify ⟨v.index, v.count, v.merkle_proof⟩ ≠ Except.ok ()) := by
  have hP2 : verify ⟨v.index, v.count, v.merkle_proof⟩ = Except.ok ()
      → tryFromValidator v = Except.ok ⟨v.index, v.count, v.merkle_proof⟩ := by
    intro hok
    rw [verify_ok_iff] at hok
    obtain ⟨hb, hl⟩ := hok
    rw [tryFromValidator_eq, if_neg (not_or.mpr ⟨by omega, not_not_intro hl⟩)]
  refine ⟨?_, hP2, ?_⟩
  · by_cases hC : v.count < v.index
        ∨ v.merkle_proof.length ≠ compute_expected_proof_length v.index v.count
    · rw [tryFromValidator_eq, if_pos hC]
      constructor
      · rintro ⟨p, hp⟩
        exact absurd hp (by simp)
      · rintro ⟨h1, h2⟩
        rcases hC with h | h
        · omega
        · exact absurd h2 h
    · rw [tryFromValidator_eq, if_neg hC]
      rw [not_or, not_not] at hC
      constructor
      · intro _
        exact ⟨by omega, hC.2⟩
      · intro _
        exact ⟨_, rfl⟩
  · intro herr hok
    have h := hP2 hok
    rw [h] at herr
    exact absurd herr (by simp)

/-- Claim C3: `verify` returns `IndexOutOfBounds{count, index}` when neither
`count = 0 ∧ index = 0` nor `index < count` holds, `UnexpectedProofLength`
when the bounds pass but the proof length differs from the expected length,
and `Ok(())` otherwise; in particular `(index 23, count 4, 3 hashes)` gives
`IndexOutOfBounds{4, 23}` and `(index 1235, count 5647, 13 hashes)` gives
`UnexpectedProofLength` with expected 14 and actual 13. -/
theorem C3_verify_cases :
    (∀ (index count : Nat) (proof : List Blake2bHash),
      (¬((count = 0 ∧ index = 0) ∨ index < count) →
        verify ⟨index, count, proof⟩
          = Except.error (MerkleVerificationError.IndexOutOfBounds count index))
      ∧ (((count = 0 ∧ index = 0) ∨ index < count) →
          proof.length ≠ compute_expected_proof_length index count →
          verify ⟨index, count, proof⟩
            = Except.error (MerkleVerificationError.UnexpectedProofLength count index
                (compute_expected_proof_length index count) proof.length))
      ∧ (((count = 0 ∧ index = 0) ∨ index < count) →
          proof.length = compute_expected_proof_length index count →
          verify ⟨index, count, proof⟩ = Except.ok ()))
    ∧ (∀ a b c : Blake2bHash,
        verify ⟨23, 4, [a, b, c]⟩
          = Except.error (MerkleVerificationError.IndexOutOfBounds 4 23))
    ∧ verify ⟨1235, 5647, List.replicate 13 (Blake2bHash.raw 0)⟩
        = Except.error (MerkleVerificationError.UnexpectedProofLength 5647 1235 14 13) := by
  refine ⟨?_, fun a b c => rfl, rfl⟩
  intro index count proof
  refine ⟨?_, ?_, ?_⟩
  · intro h
    rw [verify_eq, if_pos h]
  · intro h1 h2
    rw [verify_eq, if_neg (not_not_intro h1), if_pos h2]
  · intro h1 h2
    rw [verify_eq, if_neg (not_not_intro h1), if_neg (not_not_intro h2)]

/-- Claim C4: `new` fails with `IndexOutOfBounds{count, index}` exactly for a
non-empty stream whose realized length is at most `index`, fails with
`EmptyProofMustHaveIndex{index}` exactly for an empty stream with a nonzero
index, and otherwise succeeds with `count` equal to the stream length. -/
theorem C4_new_cases (leaves : List Blake2bHash) (index : Nat) :
    (new leaves index
        = some (Except.error (MerkleConstructionError.IndexOutOfBounds leaves.length index))
      ↔ leaves ≠ [] ∧ leaves.length ≤ index)
    ∧ (new leaves index
        = some (Except.error (MerkleConstructionError.EmptyProofMustHaveIndex index))
      ↔ leaves = [] ∧ index ≠ 0)
    ∧ ((∃ p, new leaves index = some (Except.ok p) ∧ p.count = leaves.length)
      ↔ (index < leaves.length ∨ (leaves = [] ∧ index = 0))) := by
  rw [new_spec]
  by_cases hnil : leaves = []
  · subst hnil
    rw [if_pos rfl]
    by_cases hidx : index = 0
    · subst hidx
      simp
    · rw [if_pos hidx]
      simp [hidx]
  · rw [if_neg hnil]
    have hpos : 0 < leaves.length := List.length_pos.mpr hnil
    by_cases hidx : index < leaves.length
    · rw [if_pos hidx]
      refine ⟨?_, ?_, ?_⟩
      · constructor
        · intro h
          exact absurd h (by simp)
        · rintro ⟨_, h2⟩
          omega
      · constructor
        · intro h
          exact absurd h (by simp)
        · rintro ⟨h, _⟩
          exact absurd h hnil
      · constructor
        · intro _
          exact Or.inl hidx
        · intro _
          exact ⟨⟨index, leaves.length, canonicalProof index leaves⟩, rfl, rfl⟩
    · rw [if_neg hidx]
      refine ⟨?_, ?_, ?_⟩
      · constructor
        · intro _
          exact ⟨hnil, by omega⟩
        · intro _
          rfl
      · constructor
        · intro h
          exact absurd h (by simp)
        · rintro ⟨h, _⟩
          exact absurd h hnil
      · constructor
        · rintro ⟨p, hp, _⟩
          exact absurd hp (by simp)
        · intro h
          rcases h with h | ⟨h, _⟩
          · omega
          · exact absurd h hnil

/-- Claim C5: whenever `new` succeeds, the produced proof vector has exactly
the length predicted by `compute_expected_proof_length` at the proof's own
index and count. -/
theorem C5_length_exact (leaves : List Blake2bHash) (index : Nat)
    (p : IndexedMerkleProof) (h : new leaves index = some (Except.ok p)) :
    p.merkle_proof.length = compute_expected_proof_length p.index p.count := by
  rw [new_spec] at h
  by_cases hnil : leaves = []
  · subst hnil
    rw [if_pos rfl] at h
    by_cases hidx : index = 0
    · subst hidx
      simp only [ne_eq, not_true_eq_false, if_false, Option.some.injEq,
        Except.ok.injEq] at h
      subst h
      rfl
    · rw [if_pos hidx] at h
      simp at h
  · rw [if_neg hnil] at h
    have hpos : 0 < leaves.length := List.length_pos.mpr hnil
    by_cases hidx : index < leaves.length
    · rw [if_pos hidx] at h
      simp only [Option.some.injEq, Except.ok.injEq] at h
      subst h
      show (canonicalProof index leaves).length
        = compute_expected_proof_length index leaves.length
      rw [canonicalProof_length leaves.length leaves index le_rfl hnil,
        expected_len_eq index (by omega)]
    · rw [if_neg hidx] at h
      simp at h

/-- Witness for C5 at a concrete three-leaf construction. -/
theorem C5_length_exact_witness :
    ([Blake2bHash.raw 1, Blake2bHash.raw 0, Blake2bHash.raw 2].length
      = compute_expected_proof_length 1 3) :=
  C5_length_exact [Blake2bHash.raw 0, Blake2bHash.raw 1, Blake2bHash.raw 2] 1
    ⟨1, 3, [Blake2bHash.raw 1, Blake2bHash.raw 0, Blake2bHash.raw 2]⟩ (by rfl)

/-- Claim C6: for every `u64` pair `(index, count)` and every proof vector of
the expected length, the recursive reference implementation of the
split/combine rule agrees with the iterative bit-packed `root_hash`. -/
theorem C6_reference_agreement (index count : Nat) (proof : List Blake2bHash)
    (hcnt : count < 2 ^ 64)
    (hlen : proof.length = compute_expected_proof_length index count) :
    reference_root_from_proof index count proof
      = some (root_hash ⟨index, count, proof⟩) :=
  reference_eq_root index count proof (by omega) hlen

/-- Witness for C6 at the large pair `index = 2147483648`,
`count = 4294967297` (proof length 34). -/
theorem C6_reference_agreement_witness :
    reference_root_from_proof 2147483648 4294967297
        (List.replicate 34 (Blake2bHash.raw 0))
      = some (root_hash ⟨2147483648, 4294967297, List.replicate 34 (Blake2bHash.raw 0)⟩) :=
  C6_reference_agreement 2147483648 4294967297 (List.replicate 34 (Blake2bHash.raw 0))
    (by norm_num) (by rfl)

/-- Claim C7: for all `u64` values, the expected proof length is at most 65;
it is 0 for `count = 0` and otherwise 1 plus the number of descent steps of
the canonical split of §4.2. -/
theorem C7_expected_length_bound (index count : Nat) (hcnt : count < 2 ^ 64) :
    compute_expected_proof_length index count ≤ 65
    ∧ (count = 0 → compute_expected_proof_length index count = 0)
    ∧ (count ≠ 0 →
        compute_expected_proof_length index count = 1 + (descend count index).length) := by
  refine ⟨?_, fun h => by subst h; rfl, fun h => expected_len_eq index h⟩
  by_cases h : count = 0
  · subst h
    simp [expected_len_zero]
  · rw [expected_len_eq index h]
    have := descend_len_le 64 count index (by omega)
    omega

/-- Witness for C7 at the extreme `count = 2 ^ 64 - 1`. -/
theorem C7_expected_length_bound_witness :
    compute_expected_proof_length 0 (2 ^ 64 - 1) ≤ 65
    ∧ (2 ^ 64 - 1 = 0 → compute_expected_proof_length 0 (2 ^ 64 - 1) = 0)
    ∧ (2 ^ 64 - 1 ≠ 0 → compute_expected_proof_length 0 (2 ^ 64 - 1)
        = 1 + (descend (2 ^ 64 - 1) 0).length) :=
  C7_expected_length_bound 0 (2 ^ 64 - 1) (by norm_num)

/-- Claim C8: the proof `(index 0, count 0, empty vector)` verifies, and its
root hash is exactly the little-endian encoding of `0` combined with the
empty-sequence sentinel. -/
theorem C8_empty_sequence :
    verify ⟨0, 0, []⟩ = Except.ok ()
    ∧ root_hash ⟨0, 0, []⟩ = hash_pair (Blake2bHash.leBytes 0) SENTINEL2 :=
  ⟨rfl, rfl⟩

/-- Claim C9: the combining closure of the tree fold in `new` is never
applied to two `Proof` nodes, so the `unreachable!()` arm is dead and `new`
never panics — in the embedding, `new` never returns `none`. -/
theorem C9_no_panic (leaves : List Blake2bHash) (index : Nat) :
    (new leaves index).isSome = true := by
  rw [new_spec]
  by_cases hnil : leaves = []
  · rw [if_pos hnil]
    by_cases hidx : index ≠ 0
    · rw [if_pos hidx]
      rfl
    · rw [if_neg hidx]
      rfl
  · rw [if_neg hnil]
    by_cases hidx : index < leaves.length
    · rw [if_pos hidx]
      rfl
    · rw [if_neg hidx]
      rfl

/-- Claim C10: for `u64` counts the direction-bit loop of `root_hash` runs at
most 64 iterations and the 64-bit packed path loses no direction bit — the
truncating loop equals the exact bit packing, whose value fits in 64 bits —
and for every subtree size `1 < n` the shift amount `63 - (n-1).leading_zeros()`
does not underflow, recovers the pivot, and the pivot strictly decreases `n`. -/
theorem C10_path_loop_safety (count index : Nat) (hcnt : count < 2 ^ 64) :
    (descend count index).length ≤ 64
    ∧ pathLoop count index = bitsToNat (descend count index)
    ∧ bitsToNat (descend count index) < 2 ^ 64
    ∧ (∀ n : Nat, 1 < n → n < 2 ^ 64 →
        leading_zeros64 (n - 1) ≤ 63
          ∧ 2 ^ (63 - leading_zeros64 (n - 1)) = pivot n
          ∧ pivot n < n) := by
  have h1 : (descend count index).length ≤ 64 := descend_len_le 64 count index (by omega)
  have h2 := pathLoop_eq_bits index (by omega : count ≤ 2 ^ 64)
  have h3 : bitsToNat (descend count index) < 2 ^ (descend count index).length :=
    bitsToNat_lt _
  refine ⟨h1, h2, lt_of_lt_of_le h3 (Nat.pow_le_pow_right (by norm_num) h1), ?_⟩
  intro n hn1 hn2
  have hlog : Nat.log 2 (n - 1) ≤ 63 := by
    have h2p : 2 ^ Nat.log 2 (n - 1) ≤ n - 1 := Nat.pow_log_le_self 2 (by omega)
    by_contra hgt
    push_neg at hgt
    have : (2 : Nat) ^ 64 ≤ 2 ^ Nat.log 2 (n - 1) :=
      Nat.pow_le_pow_right (by norm_num) (by omega)
    omega
  have hbl : bitLength (n - 1) = Nat.log 2 (n - 1) + 1 := by
    unfold bitLength
    rw [if_neg (by omega), ulog2_eq]
  unfold leading_zeros64
  rw [hbl]
  refine ⟨by omega, ?_, pivot_lt hn1⟩
  have hs : 63 - (64 - (Nat.log 2 (n - 1) + 1)) = Nat.log 2 (n - 1) := by omega
  rw [hs]
  unfold pivot
  rw [ulog2_eq]

/-- Witness for C10 at the extreme `count = 2 ^ 64 - 1`. -/
theorem C10_path_loop_safety_witness :
    (descend (2 ^ 64 - 1) 0).length ≤ 64
    ∧ pathLoop (2 ^ 64 - 1) 0 = bitsToNat (descend (2 ^ 64 - 1) 0)
    ∧ bitsToNat (descend (2 ^ 64 - 1) 0) < 2 ^ 64
    ∧ (∀ n : Nat, 1 < n → n < 2 ^ 64 →
        leading_zeros64 (n - 1) ≤ 63
          ∧ 2 ^ (63 - leading_zeros64 (n - 1)) = pivot n
          ∧ pivot n < n) :=
  C10_path_loop_safety (2 ^ 64 - 1) 0 (by norm_num)
